import Mathlib

/-!
Shallow embedding of src/csharp_comparison/sum.c: five u32 summation
kernels, the cycle-measurement harness, the test runner and the driver.
Machine u32 values are modelled as Nat reduced modulo 2^32 at every
arithmetic step; u64 values as Nat reduced modulo 2^64.  Memory is a total
function Nat → Nat giving the u32 stored at each index.  Loops are
translated as fuel recursion: the fuel argument is an upper bound on the
number of iterations and the original loop guard is kept, so with enough
fuel the function computes exactly what the C loop computes.
-/

/-- Modulus of u32 arithmetic, 2^32. -/
def U32M : Nat := 4294967296

/-- Modulus of u64 arithmetic, 2^64. -/
def U64M : Nat := 18446744073709551616

/-- Wrapping u32 addition, the semantics of C `+` on `u32` operands. -/
def add32 (a b : Nat) : Nat := (a + b) % U32M

/-- Loop of `SingleScalar`: `for (i = 0; i < count; i++) total_sum += input_data[i];`.
Arguments: fuel, loop index `i`, accumulator `total_sum`. -/
def SingleScalar.loop (input_data : Nat → Nat) (count : Nat) : Nat → Nat → Nat → Nat
  | 0, _, total_sum => total_sum
  | fuel + 1, i, total_sum =>
    if i < count then
      SingleScalar.loop input_data count fuel (i + 1) (add32 total_sum (input_data i))
    else total_sum

/-- C function `SingleScalar(u32 count, u32* input_data)`. -/
def SingleScalar (count : Nat) (input_data : Nat → Nat) : Nat :=
  SingleScalar.loop input_data count count 0 0

/-- Loop of `Unroll2Scalar`: two adds per iteration, `i += 2`. -/
def Unroll2Scalar.loop (input_data : Nat → Nat) (count : Nat) : Nat → Nat → Nat → Nat
  | 0, _, total_sum => total_sum
  | fuel + 1, i, total_sum =>
    if i < count then
      Unroll2Scalar.loop input_data count fuel (i + 2)
        (add32 (add32 total_sum (input_data i)) (input_data (i + 1)))
    else total_sum

/-- C function `Unroll2Scalar(u32 count, u32* input_data)`. -/
def Unroll2Scalar (count : Nat) (input_data : Nat → Nat) : Nat :=
  Unroll2Scalar.loop input_data count count 0 0

/-- Loop of `Unroll4Scalar`: four adds per iteration, `i += 4`. -/
def Unroll4Scalar.loop (input_data : Nat → Nat) (count : Nat) : Nat → Nat → Nat → Nat
  | 0, _, total_sum => total_sum
  | fuel + 1, i, total_sum =>
    if i < count then
      Unroll4Scalar.loop input_data count fuel (i + 4)
        (add32 (add32 (add32 (add32 total_sum (input_data i)) (input_data (i + 1)))
          (input_data (i + 2))) (input_data (i + 3)))
    else total_sum

/-- C function `Unroll4Scalar(u32 count, u32* input_data)`. -/
def Unroll4Scalar (count : Nat) (input_data : Nat → Nat) : Nat :=
  Unroll4Scalar.loop input_data count count 0 0

/-- A 128-bit SSE register viewed as four u32 lanes, lane 0 lowest. -/
structure M128 where
  e0 : Nat
  e1 : Nat
  e2 : Nat
  e3 : Nat
deriving DecidableEq

/-- Intrinsic `_mm_setzero_si128`. -/
def mm_setzero_si128 : M128 := ⟨0, 0, 0, 0⟩

/-- Intrinsic `_mm_loadu_si128` applied at `&input_data[i]`: copies the four
u32 values at indices i..i+3 into the four lanes. -/
def mm_loadu_si128 (input_data : Nat → Nat) (i : Nat) : M128 :=
  ⟨input_data i, input_data (i + 1), input_data (i + 2), input_data (i + 3)⟩

/-- Intrinsic `_mm_add_epi32`: lane-wise wrapping 32-bit addition. -/
def mm_add_epi32 (a b : M128) : M128 :=
  ⟨add32 a.e0 b.e0, add32 a.e1 b.e1, add32 a.e2 b.e2, add32 a.e3 b.e3⟩

/-- Intrinsic `_mm_hadd_epi32`: horizontal pairwise 32-bit addition. -/
def mm_hadd_epi32 (a b : M128) : M128 :=
  ⟨add32 a.e0 a.e1, add32 a.e2 a.e3, add32 b.e0 b.e1, add32 b.e2 b.e3⟩

/-- Intrinsic `_mm_cvtsi128_si32`: the low 32 bits of the register. -/
def mm_cvtsi128_si32 (a : M128) : Nat := a.e0 % U32M

/-- Vector loop of `Simd128`: while `i + 4 <= count`, accumulate a 4-lane
load.  Both the guard expression `i + 4` and the increment `i += 4` are
u32 arithmetic, so they are reduced modulo 2^32 as in the source: for
`count ≥ 2^32 - 4` the guard wraps to 0 and stays true forever, so the
fuel runs out with the loop still running (the C loop never exits there).
Returns the final register together with the final value of `i`. -/
def Simd128.vloop (input_data : Nat → Nat) (count : Nat) : Nat → Nat → M128 → M128 × Nat
  | 0, i, total_sum => (total_sum, i)
  | fuel + 1, i, total_sum =>
    if (i + 4) % U32M ≤ count then
      Simd128.vloop input_data count fuel ((i + 4) % U32M)
        (mm_add_epi32 total_sum (mm_loadu_si128 input_data i))
    else (total_sum, i)

/-- C function `Simd128(u32 count, u32* input_data)`: vector loop, double
horizontal add, extraction, then the scalar tail loop
`for (; i < count; i++) result += input_data[i];` (the same loop shape as
`SingleScalar.loop`, started at the vector loop's final `i`). -/
def Simd128 (count : Nat) (input_data : Nat → Nat) : Nat :=
  let p := Simd128.vloop input_data count count 0 mm_setzero_si128
  let t1 := mm_hadd_epi32 p.1 p.1
  let t2 := mm_hadd_epi32 t1 t1
  SingleScalar.loop input_data count count p.2 (mm_cvtsi128_si32 t2)

/-- A 256-bit AVX register viewed as eight u32 lanes, lane 0 lowest. -/
structure M256 where
  e0 : Nat
  e1 : Nat
  e2 : Nat
  e3 : Nat
  e4 : Nat
  e5 : Nat
  e6 : Nat
  e7 : Nat
deriving DecidableEq

/-- Intrinsic `_mm256_setzero_si256`. -/
def mm256_setzero_si256 : M256 := ⟨0, 0, 0, 0, 0, 0, 0, 0⟩

/-- Intrinsic `_mm256_loadu_si256` applied at `&input_data[i]`. -/
def mm256_loadu_si256 (input_data : Nat → Nat) (i : Nat) : M256 :=
  ⟨input_data i, input_data (i + 1), input_data (i + 2), input_data (i + 3),
   input_data (i + 4), input_data (i + 5), input_data (i + 6), input_data (i + 7)⟩

/-- Intrinsic `_mm256_add_epi32`: lane-wise wrapping 32-bit addition. -/
def mm256_add_epi32 (a b : M256) : M256 :=
  ⟨add32 a.e0 b.e0, add32 a.e1 b.e1, add32 a.e2 b.e2, add32 a.e3 b.e3,
   add32 a.e4 b.e4, add32 a.e5 b.e5, add32 a.e6 b.e6, add32 a.e7 b.e7⟩

/-- Intrinsic `_mm256_castsi256_si128`: the low four lanes. -/
def mm256_castsi256_si128 (a : M256) : M128 := ⟨a.e0, a.e1, a.e2, a.e3⟩

/-- Intrinsic `_mm256_extracti128_si256` with selector 1: the high four lanes. -/
def mm256_extracti128_si256_hi (a : M256) : M128 := ⟨a.e4, a.e5, a.e6, a.e7⟩

/-- Vector loop of `Simd256`: while `i + 8 <= count`, accumulate an 8-lane
load.  As in `Simd128.vloop`, guard and increment are u32 arithmetic
reduced modulo 2^32: for `count ≥ 2^32 - 8` the guard wraps and the C loop
never exits.  Returns the final register and the final value of `i`. -/
def Simd256.vloop (input_data : Nat → Nat) (count : Nat) : Nat → Nat → M256 → M256 × Nat
  | 0, i, total_sum => (total_sum, i)
  | fuel + 1, i, total_sum =>
    if (i + 8) % U32M ≤ count then
      Simd256.vloop input_data count fuel ((i + 8) % U32M)
        (mm256_add_epi32 total_sum (mm256_loadu_si256 input_data i))
    else (total_sum, i)

/-- C function `Simd256(u32 count, u32* input_data)`: vector loop, fold the
two 128-bit halves together, double horizontal add, extraction, then the
scalar tail loop (same loop shape as `SingleScalar.loop`). -/
def Simd256 (count : Nat) (input_data : Nat → Nat) : Nat :=
  let p := Simd256.vloop input_data count count 0 mm256_setzero_si256
  let sum128 := mm_add_epi32 (mm256_castsi256_si128 p.1) (mm256_extracti128_si256_hi p.1)
  let t1 := mm_hadd_epi32 sum128 sum128
  let t2 := mm_hadd_epi32 t1 t1
  SingleScalar.loop input_data count count p.2 (mm_cvtsi128_si32 t2)

/-- Mathematical sum of the `n` memory cells starting at index `i`
(no wraparound); the specification value the kernels are compared to. -/
def sumFrom (input_data : Nat → Nat) (i : Nat) : Nat → Nat
  | 0 => 0
  | n + 1 => input_data i + sumFrom input_data (i + 1) n

/-- The buffer `run_test` fills: `input_data[j] = j` with `j` a `u32`. -/
def iotaBuf : Nat → Nat := fun j => j % U32M

/-- Memory state: the u32 value stored at each array index. -/
abbrev Mem : Type := Nat → Nat

/-- Instrumented form of `SingleScalar.loop`: the memory state is threaded
through explicitly (each array access is a load from it, and the loop body
contains no store, exactly as in the source) and every index read is
appended to a trace.  Returns (result, final memory, read trace). -/
def SingleScalarE.loop (count : Nat) : Nat → Nat → Nat → Mem → List Nat → Nat × Mem × List Nat
  | 0, _, total_sum, m, rs => (total_sum, m, rs)
  | fuel + 1, i, total_sum, m, rs =>
    if i < count then
      SingleScalarE.loop count fuel (i + 1) (add32 total_sum (m i)) m (rs ++ [i])
    else (total_sum, m, rs)

/-- Instrumented `SingleScalar`. -/
def SingleScalarE (count : Nat) (m : Mem) : Nat × Mem × List Nat :=
  SingleScalarE.loop count count 0 0 m []

/-- Instrumented form of `Unroll2Scalar.loop`. -/
def Unroll2ScalarE.loop (count : Nat) : Nat → Nat → Nat → Mem → List Nat → Nat × Mem × List Nat
  | 0, _, total_sum, m, rs => (total_sum, m, rs)
  | fuel + 1, i, total_sum, m, rs =>
    if i < count then
      Unroll2ScalarE.loop count fuel (i + 2)
        (add32 (add32 total_sum (m i)) (m (i + 1))) m (rs ++ [i, i + 1])
    else (total_sum, m, rs)

/-- Instrumented `Unroll2Scalar`. -/
def Unroll2ScalarE (count : Nat) (m : Mem) : Nat × Mem × List Nat :=
  Unroll2ScalarE.loop count count 0 0 m []

/-- Instrumented form of `Unroll4Scalar.loop`. -/
def Unroll4ScalarE.loop (count : Nat) : Nat → Nat → Nat → Mem → List Nat → Nat × Mem × List Nat
  | 0, _, total_sum, m, rs => (total_sum, m, rs)
  | fuel + 1, i, total_sum, m, rs =>
    if i < count then
      Unroll4ScalarE.loop count fuel (i + 4)
        (add32 (add32 (add32 (add32 total_sum (m i)) (m (i + 1))) (m (i + 2))) (m (i + 3)))
        m (rs ++ [i, i + 1, i + 2, i + 3])
    else (total_sum, m, rs)

/-- Instrumented `Unroll4Scalar`. -/
def Unroll4ScalarE (count : Nat) (m : Mem) : Nat × Mem × List Nat :=
  Unroll4ScalarE.loop count count 0 0 m []

/-- Instrumented form of `Simd128.vloop`: a 16-byte unaligned load reads the
four u32 cells at indices i..i+3 (contiguous addresses, so the read indices
themselves do not wrap); guard and increment are u32 arithmetic reduced
modulo 2^32 exactly as in the plain form, so for `count ≥ 2^32 - 4` the
trace records the out-of-bounds reads the wrapped guard lets through. -/
def Simd128E.vloop (count : Nat) : Nat → Nat → M128 → Mem → List Nat → (M128 × Nat) × Mem × List Nat
  | 0, i, total_sum, m, rs => ((total_sum, i), m, rs)
  | fuel + 1, i, total_sum, m, rs =>
    if (i + 4) % U32M ≤ count then
      Simd128E.vloop count fuel ((i + 4) % U32M) (mm_add_epi32 total_sum (mm_loadu_si128 m i))
        m (rs ++ [i, i + 1, i + 2, i + 3])
    else ((total_sum, i), m, rs)

/-- Instrumented `Simd128`: vector loop then scalar tail loop, both traced. -/
def Simd128E (count : Nat) (m : Mem) : Nat × Mem × List Nat :=
  let p := Simd128E.vloop count count 0 mm_setzero_si128 m []
  let t1 := mm_hadd_epi32 p.1.1 p.1.1
  let t2 := mm_hadd_epi32 t1 t1
  SingleScalarE.loop count count p.1.2 (mm_cvtsi128_si32 t2) p.2.1 p.2.2

/-- Instrumented form of `Simd256.vloop`: a 32-byte unaligned load reads the
eight u32 cells at indices i..i+7; guard and increment are u32 arithmetic
reduced modulo 2^32 exactly as in the plain form. -/
def Simd256E.vloop (count : Nat) : Nat → Nat → M256 → Mem → List Nat → (M256 × Nat) × Mem × List Nat
  | 0, i, total_sum, m, rs => ((total_sum, i), m, rs)
  | fuel + 1, i, total_sum, m, rs =>
    if (i + 8) % U32M ≤ count then
      Simd256E.vloop count fuel ((i + 8) % U32M) (mm256_add_epi32 total_sum (mm256_loadu_si256 m i))
        m (rs ++ [i, i + 1, i + 2, i + 3, i + 4, i + 5, i + 6, i + 7])
    else ((total_sum, i), m, rs)

/-- Instrumented `Simd256`. -/
def Simd256E (count : Nat) (m : Mem) : Nat × Mem × List Nat :=
  let p := Simd256E.vloop count count 0 mm256_setzero_si256 m []
  let sum128 := mm_add_epi32 (mm256_castsi256_si128 p.1.1) (mm256_extracti128_si256_hi p.1.1)
  let t1 := mm_hadd_epi32 sum128 sum128
  let t2 := mm_hadd_epi32 t1 t1
  SingleScalarE.loop count count p.1.2 (mm_cvtsi128_si32 t2) p.2.1 p.2.2

/-- One run's raw readings of the measurement hardware: the two
`clock_gettime(CLOCK_MONOTONIC)` results (seconds and nanoseconds fields of
`struct timespec`) and the two `rdtsc` results (eax/edx register pairs),
in the order the C code takes them. -/
structure RunSample where
  startSec : Int
  startNsec : Int
  start_low : Nat
  start_high : Nat
  end_low : Nat
  end_high : Nat
  endSec : Int
  endNsec : Int
deriving DecidableEq

/-- Composition `((uint64_t)high << 32) | low` of one `rdtsc` result. -/
def composeTsc (high low : Nat) : Nat := (high % U32M) * U32M + low % U32M

/-- Wrapping u64 subtraction, the semantics of C `-` on `uint64_t`. -/
def u64sub (a b : Nat) : Nat := (U64M + a % U64M - b % U64M) % U64M

/-- Value `cycles = end - start` computed by one run of `measure_cycles`. -/
def cyclesOf (s : RunSample) : Nat :=
  u64sub (composeTsc s.end_high s.end_low) (composeTsc s.start_high s.start_low)

/-- Value `elapsed_ns` computed by one run:
`(end.tv_sec - start.tv_sec) * 1000000000 + (end.tv_nsec - start.tv_nsec)`,
converted to `uint64_t` (reduction modulo 2^64). -/
def elapsedNs (s : RunSample) : Nat :=
  (((s.endSec - s.startSec) * 1000000000 + (s.endNsec - s.startNsec)) % (U64M : Int)).toNat

/-- Clock estimate `*cpu_clock = (double)cycles / (elapsed_ns / 1e9)` of one
run, modelled with exact rational arithmetic in place of `double`. -/
def clockOf (s : RunSample) : ℚ :=
  (cyclesOf s : ℚ) / ((elapsedNs s : ℚ) / 1000000000)

/-- Observable events of one `measure_cycles` run, in program order: a
`clock_gettime` call, an `rdtsc` read, the kernel invocation `func(size,
input_data)`, and the closing reads. -/
inductive MEvent where
  | clockRead : MEvent
  | tscRead : MEvent
  | kernelCall : MEvent
deriving DecidableEq

/-- Event block of a single run of the measurement loop. -/
def runBlock : List MEvent :=
  [MEvent.clockRead, MEvent.tscRead, MEvent.kernelCall, MEvent.tscRead, MEvent.clockRead]

/-- C macro `NUM_RUNS`. -/
def NUM_RUNS : Nat := 100

/-- C constant `UINT64_MAX`, the initial value of `min_cycles`. -/
def UINT64_MAX : Nat := 18446744073709551615

/-- Loop of `measure_cycles` over `run = 0 .. NUM_RUNS-1`.  `oracle run`
gives the hardware readings of that run; the loop computes `cycles`,
overwrites `*cpu_clock` with this run's estimate, keeps the minimum cycle
count, and extends the event trace by one `runBlock`.  Returns
(min_cycles, final `*cpu_clock`, event trace). -/
def measure_cycles.loop (oracle : Nat → RunSample) :
    Nat → Nat → Nat → ℚ → List MEvent → Nat × ℚ × List MEvent
  | 0, _, min_cycles, cpu_clock, tr => (min_cycles, cpu_clock, tr)
  | fuel + 1, run, min_cycles, _cpu_clock, tr =>
    let s := oracle run
    let cycles := cyclesOf s
    let clk := clockOf s
    let min' := if cycles < min_cycles then cycles else min_cycles
    measure_cycles.loop oracle fuel (run + 1) min' clk (tr ++ runBlock)

/-- C function `measure_cycles`: `cpu_clock0` is the value `*cpu_clock`
holds on entry (the caller initialises it to 0). -/
def measure_cycles (oracle : Nat → RunSample) (cpu_clock0 : ℚ) : Nat × ℚ × List MEvent :=
  measure_cycles.loop oracle NUM_RUNS 0 UINT64_MAX cpu_clock0 []

/-- One row of the report `run_test` prints: test size, kernel result,
minimum CPU cycles, the printed clock column `cpu_clock / 1e9` (GHz), and
`adds_per_cycle = (double)size / cycles`, doubles modelled as rationals. -/
structure Row where
  size : Nat
  result : Nat
  cycles : Nat
  clock_ghz : ℚ
  adds_per_cycle : ℚ

/-- C constant `EXIT_FAILURE`. -/
def EXIT_FAILURE : Nat := 1

/-- Loop of `run_test` over the size list.  `alloc t` tells whether the
`malloc` of trial number `t` succeeds; `meas t` is the hardware oracle of
trial `t`'s `measure_cycles` call.  On success the trial allocates and
fills `input_data` (cell `j` holds the u32 `j`), measures, calls the kernel
once more for the reported result, and emits one row.  On allocation
failure the function stops at once, emitting no further rows and reporting
the failed size (the diagnostic printed to stderr before `exit`). -/
def run_test.loop (alloc : Nat → Bool) (meas : Nat → Nat → RunSample)
    (func : Nat → (Nat → Nat) → Nat) : List Nat → Nat → List Row × Option Nat
  | [], _ => ([], none)
  | size :: rest, t =>
    if alloc t then
      let input_data := iotaBuf
      let mc := measure_cycles (meas t) 0
      let cycles := mc.1
      let cpu_clock := mc.2.1
      let adds_per_cycle : ℚ := (size : ℚ) / (cycles : ℚ)
      let result := func size input_data
      let row : Row := ⟨size, result, cycles, cpu_clock / 1000000000, adds_per_cycle⟩
      let r2 := run_test.loop alloc meas func rest (t + 1)
      (row :: r2.1, r2.2)
    else ([], some size)

/-- C function `run_test`: returns the rows printed and, when a `malloc`
failed, the size named in the fatal diagnostic. -/
def run_test (alloc : Nat → Bool) (meas : Nat → Nat → RunSample)
    (func : Nat → (Nat → Nat) → Nat) (sizes : List Nat) : List Row × Option Nat :=
  run_test.loop alloc meas func sizes 0

/-- C array `test_sizes` in `main`. -/
def test_sizes : List Nat := [5000]

/-- The five `run_test` calls of `main`, in source order, each pairing the
printed function name with the kernel. -/
def kernelTable : List (String × (Nat → (Nat → Nat) → Nat)) :=
  [("SingleScalar", SingleScalar),
   ("Unroll2Scalar", Unroll2Scalar),
   ("Unroll4Scalar", Unroll4Scalar),
   ("Simd128", Simd128),
   ("Simd256", Simd256)]

/-- Result of a whole process execution: exit status, the per-kernel tables
actually printed (name and rows, in order), and the size named in the
allocation-failure diagnostic when one was printed. -/
structure MainOut where
  exitCode : Nat
  tables : List (String × List Row)
  errSize : Option Nat

/-- Sequence of `run_test` calls in `main`: kernel `k` uses allocation
oracle `alloc k` and measurement oracle `meas k`.  An allocation failure
inside one call exits the process, so no later call runs. -/
def cMain.loop (alloc : Nat → Nat → Bool) (meas : Nat → Nat → Nat → RunSample) :
    List (String × (Nat → (Nat → Nat) → Nat)) → Nat → List (String × List Row) × Option Nat
  | [], _ => ([], none)
  | (nm, func) :: rest, k =>
    let r := run_test (alloc k) (meas k) func test_sizes
    match r.2 with
    | some s => ([(nm, r.1)], some s)
    | none =>
      let m := cMain.loop alloc meas rest (k + 1)
      ((nm, r.1) :: m.1, m.2)

/-- C function `main` (named `cMain` here): runs the five kernels over `test_sizes`; exit status
0 on completion, `EXIT_FAILURE` when an allocation failed. -/
def cMain (alloc : Nat → Nat → Bool) (meas : Nat → Nat → Nat → RunSample) : MainOut :=
  let p := cMain.loop alloc meas kernelTable 0
  ⟨if p.2.isSome then EXIT_FAILURE else 0, p.1, p.2⟩

/-- Oracle used to exhibit the clock-estimate behaviour concretely: run `r`
measures `r + 1` cycles in one nanosecond, so the minimum-cycle run is run
0 while the clock estimate comes from run 99. -/
def demoOracle : Nat → RunSample := fun r =>
  ⟨0, 0, 0, 0, r + 1, 0, 0, 1⟩

/-- A buffer whose element at index `j` is exactly `j`; the mathematical
reading of a buffer containing `0, 1, ..., n-1`. -/
def idBuf : Nat → Nat := fun j => j

/-- Total of the four u32 lanes of a 128-bit register (no wraparound). -/
def laneSum (v : M128) : Nat := v.e0 + v.e1 + v.e2 + v.e3

/-- Total of the eight u32 lanes of a 256-bit register (no wraparound). -/
def laneSum8 (v : M256) : Nat := v.e0 + v.e1 + v.e2 + v.e3 + v.e4 + v.e5 + v.e6 + v.e7

/-! Arithmetic facts about the modular helpers. -/

theorem U32M_pos : 0 < U32M := by decide

theorem add32_lt (a b : Nat) : add32 a b < U32M := Nat.mod_lt _ U32M_pos

/-- Pushing a u32 wrapping add out of an outer reduction modulo 2^32. -/
theorem add32_mod (acc v s : Nat) : (add32 acc v + s) % U32M = (acc + (v + s)) % U32M := by
  unfold add32
  rw [Nat.mod_add_mod, Nat.add_assoc]

/-! Facts about the mathematical partial sum `sumFrom`. -/

theorem sumFrom_zero (f : Nat → Nat) (i : Nat) : sumFrom f i 0 = 0 := rfl

theorem sumFrom_succ (f : Nat → Nat) (i n : Nat) :
    sumFrom f i (n + 1) = f i + sumFrom f (i + 1) n := rfl

theorem sumFrom_split (f : Nat → Nat) (a : Nat) :
    ∀ i b, sumFrom f i (a + b) = sumFrom f i a + sumFrom f (i + a) b := by
  induction a with
  | zero => intro i b; simp [sumFrom]
  | succ a ih =>
    intro i b
    have h1 : a + 1 + b = (a + b) + 1 := by omega
    rw [h1, sumFrom_succ, sumFrom_succ, ih (i + 1) b]
    have h2 : i + 1 + a = i + (a + 1) := by omega
    rw [h2]
    omega

theorem sumFrom_eq_sum (f : Nat → Nat) (n : Nat) :
    ∀ i, sumFrom f i n = ∑ j ∈ Finset.range n, f (i + j) := by
  induction n with
  | zero => intro i; simp [sumFrom]
  | succ n ih =>
    intro i
    rw [sumFrom_succ, ih (i + 1), Finset.sum_range_succ']
    have h1 : ∀ j, i + 1 + j = i + (j + 1) := by omega
    simp only [h1, Nat.add_zero]
    omega

theorem sumFrom_congr (f g : Nat → Nat) (n : Nat) :
    ∀ i, (∀ j, i ≤ j → j < i + n → f j = g j) → sumFrom f i n = sumFrom g i n := by
  induction n with
  | zero => intro i _; rfl
  | succ n ih =>
    intro i h
    rw [sumFrom_succ, sumFrom_succ, h i (Nat.le_refl i) (by omega),
      ih (i + 1) (fun j h1 h2 => h j (by omega) (by omega))]

/-- Gauss sum: the buffer `0, 1, ..., n-1` adds up to `n*(n-1)/2`. -/
theorem sumFrom_idBuf (n : Nat) : sumFrom idBuf 0 n = n * (n - 1) / 2 := by
  rw [sumFrom_eq_sum]
  simp only [idBuf, Nat.zero_add]
  exact Finset.sum_range_id n

/-! Characterisation of the scalar kernels: each computes the mathematical
sum of the cells it walks, reduced modulo 2^32. -/

theorem SingleScalar_loop_eq (input_data : Nat → Nat) (count : Nat) :
    ∀ fuel i total_sum, total_sum < U32M → count ≤ i + fuel →
      SingleScalar.loop input_data count fuel i total_sum =
        (total_sum + sumFrom input_data i (count - i)) % U32M := by
  intro fuel
  induction fuel with
  | zero =>
    intro i total_sum hacc hle
    have h0 : count - i = 0 := by omega
    simp [SingleScalar.loop, h0, sumFrom_zero, Nat.mod_eq_of_lt hacc]
  | succ fuel ih =>
    intro i total_sum hacc hle
    by_cases h : i < count
    · rw [SingleScalar.loop, if_pos h,
        ih (i + 1) (add32 total_sum (input_data i)) (add32_lt _ _) (by omega)]
      have h1 : count - i = (count - (i + 1)) + 1 := by omega
      rw [h1, sumFrom_succ, add32_mod]
    · rw [SingleScalar.loop, if_neg h]
      have h0 : count - i = 0 := by omega
      simp [h0, sumFrom_zero, Nat.mod_eq_of_lt hacc]

theorem SingleScalar_eq (count : Nat) (input_data : Nat → Nat) :
    SingleScalar count input_data = sumFrom input_data 0 count % U32M := by
  unfold SingleScalar
  rw [SingleScalar_loop_eq input_data count count 0 0 U32M_pos (by omega)]
  simp

theorem Unroll2Scalar_loop_eq (input_data : Nat → Nat) (count : Nat) :
    ∀ fuel i total_sum, total_sum < U32M → count ≤ i + fuel → i ≤ count → 2 ∣ (count - i) →
      Unroll2Scalar.loop input_data count fuel i total_sum =
        (total_sum + sumFrom input_data i (count - i)) % U32M := by
  intro fuel
  induction fuel with
  | zero =>
    intro i total_sum hacc hle _ _
    have h0 : count - i = 0 := by omega
    simp [Unroll2Scalar.loop, h0, sumFrom_zero, Nat.mod_eq_of_lt hacc]
  | succ fuel ih =>
    intro i total_sum hacc hle hic hdvd
    by_cases h : i < count
    · have h2 : i + 2 ≤ count := by omega
      rw [Unroll2Scalar.loop, if_pos h,
        ih (i + 2) _ (add32_lt _ _) (by omega) h2 (by omega)]
      have h1 : count - i = ((count - (i + 2)) + 1) + 1 := by omega
      rw [h1, sumFrom_succ, sumFrom_succ, add32_mod, add32_mod]
    · rw [Unroll2Scalar.loop, if_neg h]
      have h0 : count - i = 0 := by omega
      simp [h0, sumFrom_zero, Nat.mod_eq_of_lt hacc]

theorem Unroll2Scalar_eq (count : Nat) (input_data : Nat → Nat) (h : 2 ∣ count) :
    Unroll2Scalar count input_data = sumFrom input_data 0 count % U32M := by
  unfold Unroll2Scalar
  rw [Unroll2Scalar_loop_eq input_data count count 0 0 U32M_pos (by omega) (by omega) (by simpa)]
  simp

theorem Unroll4Scalar_loop_eq (input_data : Nat → Nat) (count : Nat) :
    ∀ fuel i total_sum, total_sum < U32M → count ≤ i + fuel → i ≤ count → 4 ∣ (count - i) →
      Unroll4Scalar.loop input_data count fuel i total_sum =
        (total_sum + sumFrom input_data i (count - i)) % U32M := by
  intro fuel
  induction fuel with
  | zero =>
    intro i total_sum hacc hle _ _
    have h0 : count - i = 0 := by omega
    simp [Unroll4Scalar.loop, h0, sumFrom_zero, Nat.mod_eq_of_lt hacc]
  | succ fuel ih =>
    intro i total_sum hacc hle hic hdvd
    by_cases h : i < count
    · have h4 : i + 4 ≤ count := by omega
      rw [Unroll4Scalar.loop, if_pos h,
        ih (i + 4) _ (add32_lt _ _) (by omega) h4 (by omega)]
      have h1 : count - i = ((((count - (i + 4)) + 1) + 1) + 1) + 1 := by omega
      rw [h1, sumFrom_succ, sumFrom_succ, sumFrom_succ, sumFrom_succ,
        add32_mod, add32_mod, add32_mod, add32_mod]
    · rw [Unroll4Scalar.loop, if_neg h]
      have h0 : count - i = 0 := by omega
      simp [h0, sumFrom_zero, Nat.mod_eq_of_lt hacc]

theorem Unroll4Scalar_eq (count : Nat) (input_data : Nat → Nat) (h : 4 ∣ count) :
    Unroll4Scalar count input_data = sumFrom input_data 0 count % U32M := by
  unfold Unroll4Scalar
  rw [Unroll4Scalar_loop_eq input_data count count 0 0 U32M_pos (by omega) (by omega) (by simpa)]
  simp

/-! Characterisation of the SIMD kernels.  The reduction sequence at the
end of each kernel collapses the register to the lane total modulo 2^32,
so it is enough to track the lane total through the vector loop. -/

theorem laneSum_add (a b : M128) :
    laneSum (mm_add_epi32 a b) % U32M = (laneSum a + laneSum b) % U32M := by
  simp only [laneSum, mm_add_epi32, add32, U32M]
  omega

theorem laneSum8_add (a b : M256) :
    laneSum8 (mm256_add_epi32 a b) % U32M = (laneSum8 a + laneSum8 b) % U32M := by
  simp only [laneSum8, mm256_add_epi32, add32, U32M]
  omega

theorem laneSum_loadu (input_data : Nat → Nat) (i : Nat) :
    laneSum (mm_loadu_si128 input_data i) = sumFrom input_data i 4 := by
  have h : sumFrom input_data i 4 =
      input_data i + (input_data (i + 1) + (input_data (i + 2) + (input_data (i + 3) + 0))) := rfl
  simp only [laneSum, mm_loadu_si128, h]
  omega

theorem laneSum8_loadu (input_data : Nat → Nat) (i : Nat) :
    laneSum8 (mm256_loadu_si256 input_data i) = sumFrom input_data i 8 := by
  have h : sumFrom input_data i 8 =
      input_data i + (input_data (i + 1) + (input_data (i + 2) + (input_data (i + 3) +
        (input_data (i + 4) + (input_data (i + 5) + (input_data (i + 6) +
        (input_data (i + 7) + 0))))))) := rfl
  simp only [laneSum8, mm256_loadu_si256, h]
  omega

/-- The double `_mm_hadd_epi32` plus `_mm_cvtsi128_si32` sequence extracts
the total of the four lanes, reduced modulo 2^32. -/
theorem hadd_reduce (v : M128) :
    mm_cvtsi128_si32 (mm_hadd_epi32 (mm_hadd_epi32 v v) (mm_hadd_epi32 v v)) =
      laneSum v % U32M := by
  simp only [mm_hadd_epi32, mm_cvtsi128_si32, laneSum, add32, U32M]
  omega

/-- The 256-to-128 fold plus double `_mm_hadd_epi32` plus extraction
sequence of `Simd256` extracts the total of the eight lanes modulo 2^32. -/
theorem hadd256_reduce (v : M256) :
    mm_cvtsi128_si32
      (mm_hadd_epi32
        (mm_hadd_epi32 (mm_add_epi32 (mm256_castsi256_si128 v) (mm256_extracti128_si256_hi v))
          (mm_add_epi32 (mm256_castsi256_si128 v) (mm256_extracti128_si256_hi v)))
        (mm_hadd_epi32 (mm_add_epi32 (mm256_castsi256_si128 v) (mm256_extracti128_si256_hi v))
          (mm_add_epi32 (mm256_castsi256_si128 v) (mm256_extracti128_si256_hi v)))) =
      laneSum8 v % U32M := by
  simp only [mm_hadd_epi32, mm_add_epi32, mm256_castsi256_si128, mm256_extracti128_si256_hi,
    mm_cvtsi128_si32, laneSum8, add32, U32M]
  omega

theorem Simd128_vloop_eq (input_data : Nat → Nat) (count : Nat) (hM : count + 4 < U32M) :
    ∀ fuel i total_sum, count ≤ i + fuel → i ≤ count →
      i ≤ (Simd128.vloop input_data count fuel i total_sum).2 ∧
      (Simd128.vloop input_data count fuel i total_sum).2 ≤ count ∧
      laneSum (Simd128.vloop input_data count fuel i total_sum).1 % U32M =
        (laneSum total_sum +
          sumFrom input_data i ((Simd128.vloop input_data count fuel i total_sum).2 - i)) %
          U32M := by
  intro fuel
  induction fuel with
  | zero =>
    intro i total_sum _ hic
    refine ⟨Nat.le_refl i, hic, ?_⟩
    simp [Simd128.vloop, sumFrom_zero]
  | succ fuel ih =>
    intro i total_sum hle hic
    have hmod : (i + 4) % U32M = i + 4 := Nat.mod_eq_of_lt (by omega)
    by_cases h : i + 4 ≤ count
    · have hrec := ih (i + 4) (mm_add_epi32 total_sum (mm_loadu_si128 input_data i))
        (by omega) h
      rw [Simd128.vloop, hmod, if_pos h]
      obtain ⟨h1, h2, h3⟩ := hrec
      refine ⟨by omega, h2, ?_⟩
      rw [h3]
      set q := (Simd128.vloop input_data count fuel (i + 4)
        (mm_add_epi32 total_sum (mm_loadu_si128 input_data i))).2 with hq
      have hsplit : q - i = 4 + (q - (i + 4)) := by omega
      rw [hsplit, sumFrom_split input_data 4 i (q - (i + 4))]
      rw [← Nat.mod_add_mod, laneSum_add, laneSum_loadu, Nat.mod_add_mod]
      have harr : laneSum total_sum + sumFrom input_data i 4 + sumFrom input_data (i + 4)
          (q - (i + 4)) =
          laneSum total_sum + (sumFrom input_data i 4 + sumFrom input_data (i + 4)
          (q - (i + 4))) := by omega
      rw [harr]
    · rw [Simd128.vloop, hmod, if_neg h]
      refine ⟨Nat.le_refl i, hic, ?_⟩
      simp [sumFrom_zero]

theorem Simd128_eq (count : Nat) (input_data : Nat → Nat) (hM : count + 4 < U32M) :
    Simd128 count input_data = sumFrom input_data 0 count % U32M := by
  obtain ⟨h1, h2, h3⟩ := Simd128_vloop_eq input_data count hM count 0 mm_setzero_si128
    (by omega) (Nat.zero_le count)
  simp only [Simd128]
  set p := Simd128.vloop input_data count count 0 mm_setzero_si128 with hp
  rw [hadd_reduce p.1]
  rw [SingleScalar_loop_eq input_data count count p.2 (laneSum p.1 % U32M)
    (Nat.mod_lt _ U32M_pos) (by omega)]
  rw [Nat.mod_add_mod, ← Nat.mod_add_mod, h3]
  simp only [laneSum, mm_setzero_si128, Nat.zero_add, Nat.add_zero, Nat.sub_zero]
  rw [Nat.mod_add_mod]
  have hsplit : count = p.2 + (count - p.2) := by omega
  conv_rhs => rw [hsplit]
  rw [sumFrom_split input_data p.2 0 (count - p.2)]
  simp

theorem Simd256_vloop_eq (input_data : Nat → Nat) (count : Nat) (hM : count + 8 < U32M) :
    ∀ fuel i total_sum, count ≤ i + fuel → i ≤ count →
      i ≤ (Simd256.vloop input_data count fuel i total_sum).2 ∧
      (Simd256.vloop input_data count fuel i total_sum).2 ≤ count ∧
      laneSum8 (Simd256.vloop input_data count fuel i total_sum).1 % U32M =
        (laneSum8 total_sum +
          sumFrom input_data i ((Simd256.vloop input_data count fuel i total_sum).2 - i)) %
          U32M := by
  intro fuel
  induction fuel with
  | zero =>
    intro i total_sum _ hic
    refine ⟨Nat.le_refl i, hic, ?_⟩
    simp [Simd256.vloop, sumFrom_zero]
  | succ fuel ih =>
    intro i total_sum hle hic
    have hmod : (i + 8) % U32M = i + 8 := Nat.mod_eq_of_lt (by omega)
    by_cases h : i + 8 ≤ count
    · have hrec := ih (i + 8) (mm256_add_epi32 total_sum (mm256_loadu_si256 input_data i))
        (by omega) h
      rw [Simd256.vloop, hmod, if_pos h]
      obtain ⟨h1, h2, h3⟩ := hrec
      refine ⟨by omega, h2, ?_⟩
      rw [h3]
      set q := (Simd256.vloop input_data count fuel (i + 8)
        (mm256_add_epi32 total_sum (mm256_loadu_si256 input_data i))).2 with hq
      have hsplit : q - i = 8 + (q - (i + 8)) := by omega
      rw [hsplit, sumFrom_split input_data 8 i (q - (i + 8))]
      rw [← Nat.mod_add_mod, laneSum8_add, laneSum8_loadu, Nat.mod_add_mod]
      have harr : laneSum8 total_sum + sumFrom input_data i 8 + sumFrom input_data (i + 8)
          (q - (i + 8)) =
          laneSum8 total_sum + (sumFrom input_data i 8 + sumFrom input_data (i + 8)
          (q - (i + 8))) := by omega
      rw [harr]
    · rw [Simd256.vloop, hmod, if_neg h]
      refine ⟨Nat.le_refl i, hic, ?_⟩
      simp [sumFrom_zero]

theorem Simd256_eq (count : Nat) (input_data : Nat → Nat) (hM : count + 8 < U32M) :
    Simd256 count input_data = sumFrom input_data 0 count % U32M := by
  obtain ⟨h1, h2, h3⟩ := Simd256_vloop_eq input_data count hM count 0 mm256_setzero_si256
    (by omega) (Nat.zero_le count)
  simp only [Simd256]
  set p := Simd256.vloop input_data count count 0 mm256_setzero_si256 with hp
  rw [hadd256_reduce p.1]
  rw [SingleScalar_loop_eq input_data count count p.2 (laneSum8 p.1 % U32M)
    (Nat.mod_lt _ U32M_pos) (by omega)]
  rw [Nat.mod_add_mod, ← Nat.mod_add_mod, h3]
  simp only [laneSum8, mm256_setzero_si256, Nat.zero_add, Nat.add_zero, Nat.sub_zero]
  rw [Nat.mod_add_mod]
  have hsplit : count = p.2 + (count - p.2) := by omega
  conv_rhs => rw [hsplit]
  rw [sumFrom_split input_data p.2 0 (count - p.2)]
  simp

/-! Memory preservation: the kernels only load from the buffer, so the
threaded memory state is returned unchanged. -/

theorem SingleScalarE_loop_mem (m : Mem) (count : Nat) :
    ∀ fuel i total_sum rs, (SingleScalarE.loop count fuel i total_sum m rs).2.1 = m := by
  intro fuel
  induction fuel with
  | zero => intro i total_sum rs; rfl
  | succ fuel ih =>
    intro i total_sum rs
    rw [SingleScalarE.loop]
    by_cases h : i < count
    · rw [if_pos h, ih]
    · rw [if_neg h]

theorem Unroll2ScalarE_loop_mem (m : Mem) (count : Nat) :
    ∀ fuel i total_sum rs, (Unroll2ScalarE.loop count fuel i total_sum m rs).2.1 = m := by
  intro fuel
  induction fuel with
  | zero => intro i total_sum rs; rfl
  | succ fuel ih =>
    intro i total_sum rs
    rw [Unroll2ScalarE.loop]
    by_cases h : i < count
    · rw [if_pos h, ih]
    · rw [if_neg h]

theorem Unroll4ScalarE_loop_mem (m : Mem) (count : Nat) :
    ∀ fuel i total_sum rs, (Unroll4ScalarE.loop count fuel i total_sum m rs).2.1 = m := by
  intro fuel
  induction fuel with
  | zero => intro i total_sum rs; rfl
  | succ fuel ih =>
    intro i total_sum rs
    rw [Unroll4ScalarE.loop]
    by_cases h : i < count
    · rw [if_pos h, ih]
    · rw [if_neg h]

theorem Simd128E_vloop_mem (m : Mem) (count : Nat) :
    ∀ fuel i total_sum rs, (Simd128E.vloop count fuel i total_sum m rs).2.1 = m := by
  intro fuel
  induction fuel with
  | zero => intro i total_sum rs; rfl
  | succ fuel ih =>
    intro i total_sum rs
    rw [Simd128E.vloop]
    by_cases h : (i + 4) % U32M ≤ count
    · rw [if_pos h, ih]
    · rw [if_neg h]

theorem Simd256E_vloop_mem (m : Mem) (count : Nat) :
    ∀ fuel i total_sum rs, (Simd256E.vloop count fuel i total_sum m rs).2.1 = m := by
  intro fuel
  induction fuel with
  | zero => intro i total_sum rs; rfl
  | succ fuel ih =>
    intro i total_sum rs
    rw [Simd256E.vloop]
    by_cases h : (i + 8) % U32M ≤ count
    · rw [if_pos h, ih]
    · rw [if_neg h]

theorem SingleScalarE_mem (count : Nat) (m : Mem) : (SingleScalarE count m).2.1 = m :=
  SingleScalarE_loop_mem m count count 0 0 []

theorem Unroll2ScalarE_mem (count : Nat) (m : Mem) : (Unroll2ScalarE count m).2.1 = m :=
  Unroll2ScalarE_loop_mem m count count 0 0 []

theorem Unroll4ScalarE_mem (count : Nat) (m : Mem) : (Unroll4ScalarE count m).2.1 = m :=
  Unroll4ScalarE_loop_mem m count count 0 0 []

theorem Simd128E_mem (count : Nat) (m : Mem) : (Simd128E count m).2.1 = m := by
  simp only [Simd128E, SingleScalarE_loop_mem, Simd128E_vloop_mem]

theorem Simd256E_mem (count : Nat) (m : Mem) : (Simd256E count m).2.1 = m := by
  simp only [Simd256E, SingleScalarE_loop_mem, Simd256E_vloop_mem]

/-! Agreement of the instrumented kernels with the plain ones: the
instrumentation only records effects, it does not change the result. -/

theorem SingleScalarE_loop_fst (m : Mem) (count : Nat) :
    ∀ fuel i total_sum rs,
      (SingleScalarE.loop count fuel i total_sum m rs).1 =
        SingleScalar.loop m count fuel i total_sum := by
  intro fuel
  induction fuel with
  | zero => intro i total_sum rs; rfl
  | succ fuel ih =>
    intro i total_sum rs
    rw [SingleScalarE.loop, SingleScalar.loop]
    by_cases h : i < count
    · rw [if_pos h, if_pos h, ih]
    · rw [if_neg h, if_neg h]

theorem Unroll2ScalarE_loop_fst (m : Mem) (count : Nat) :
    ∀ fuel i total_sum rs,
      (Unroll2ScalarE.loop count fuel i total_sum m rs).1 =
        Unroll2Scalar.loop m count fuel i total_sum := by
  intro fuel
  induction fuel with
  | zero => intro i total_sum rs; rfl
  | succ fuel ih =>
    intro i total_sum rs
    rw [Unroll2ScalarE.loop, Unroll2Scalar.loop]
    by_cases h : i < count
    · rw [if_pos h, if_pos h, ih]
    · rw [if_neg h, if_neg h]

theorem Unroll4ScalarE_loop_fst (m : Mem) (count : Nat) :
    ∀ fuel i total_sum rs,
      (Unroll4ScalarE.loop count fuel i total_sum m rs).1 =
        Unroll4Scalar.loop m count fuel i total_sum := by
  intro fuel
  induction fuel with
  | zero => intro i total_sum rs; rfl
  | succ fuel ih =>
    intro i total_sum rs
    rw [Unroll4ScalarE.loop, Unroll4Scalar.loop]
    by_cases h : i < count
    · rw [if_pos h, if_pos h, ih]
    · rw [if_neg h, if_neg h]

theorem Simd128E_vloop_fst (m : Mem) (count : Nat) :
    ∀ fuel i total_sum rs,
      (Simd128E.vloop count fuel i total_sum m rs).1 =
        Simd128.vloop m count fuel i total_sum := by
  intro fuel
  induction fuel with
  | zero => intro i total_sum rs; rfl
  | succ fuel ih =>
    intro i total_sum rs
    rw [Simd128E.vloop, Simd128.vloop]
    by_cases h : (i + 4) % U32M ≤ count
    · rw [if_pos h, if_pos h, ih]
    · rw [if_neg h, if_neg h]

theorem Simd256E_vloop_fst (m : Mem) (count : Nat) :
    ∀ fuel i total_sum rs,
      (Simd256E.vloop count fuel i total_sum m rs).1 =
        Simd256.vloop m count fuel i total_sum := by
  intro fuel
  induction fuel with
  | zero => intro i total_sum rs; rfl
  | succ fuel ih =>
    intro i total_sum rs
    rw [Simd256E.vloop, Simd256.vloop]
    by_cases h : (i + 8) % U32M ≤ count
    · rw [if_pos h, if_pos h, ih]
    · rw [if_neg h, if_neg h]

theorem SingleScalarE_fst (count : Nat) (m : Mem) :
    (SingleScalarE count m).1 = SingleScalar count m := by
  unfold SingleScalarE SingleScalar
  exact SingleScalarE_loop_fst m count count 0 0 []

theorem Unroll2ScalarE_fst (count : Nat) (m : Mem) :
    (Unroll2ScalarE count m).1 = Unroll2Scalar count m := by
  unfold Unroll2ScalarE Unroll2Scalar
  exact Unroll2ScalarE_loop_fst m count count 0 0 []

theorem Unroll4ScalarE_fst (count : Nat) (m : Mem) :
    (Unroll4ScalarE count m).1 = Unroll4Scalar count m := by
  unfold Unroll4ScalarE Unroll4Scalar
  exact Unroll4ScalarE_loop_fst m count count 0 0 []

theorem Simd128E_fst (count : Nat) (m : Mem) :
    (Simd128E count m).1 = Simd128 count m := by
  simp only [Simd128E, Simd128, Simd128E_vloop_fst, SingleScalarE_loop_fst,
    Simd128E_vloop_mem]

theorem Simd256E_fst (count : Nat) (m : Mem) :
    (Simd256E count m).1 = Simd256 count m := by
  simp only [Simd256E, Simd256, Simd256E_vloop_fst, SingleScalarE_loop_fst,
    Simd256E_vloop_mem]

/-! Read traces: which indices the kernels access. -/

theorem Unroll2ScalarE_loop_trace_mono (m : Mem) (count : Nat) :
    ∀ fuel i total_sum rs j, j ∈ rs → j ∈ (Unroll2ScalarE.loop count fuel i total_sum m rs).2.2 := by
  intro fuel
  induction fuel with
  | zero => intro i total_sum rs j hj; exact hj
  | succ fuel ih =>
    intro i total_sum rs j hj
    rw [Unroll2ScalarE.loop]
    by_cases h : i < count
    · rw [if_pos h]
      exact ih _ _ _ j (List.mem_append.mpr (Or.inl hj))
    · rw [if_neg h]; exact hj

theorem Unroll4ScalarE_loop_trace_mono (m : Mem) (count : Nat) :
    ∀ fuel i total_sum rs j, j ∈ rs → j ∈ (Unroll4ScalarE.loop count fuel i total_sum m rs).2.2 := by
  intro fuel
  induction fuel with
  | zero => intro i total_sum rs j hj; exact hj
  | succ fuel ih =>
    intro i total_sum rs j hj
    rw [Unroll4ScalarE.loop]
    by_cases h : i < count
    · rw [if_pos h]
      exact ih _ _ _ j (List.mem_append.mpr (Or.inl hj))
    · rw [if_neg h]; exact hj

/-- Tail/scalar loop keeps the trace in bounds: its guard is `i < count`. -/
theorem SingleScalarE_loop_reads_lt (m : Mem) (count : Nat) :
    ∀ fuel i total_sum rs, (∀ j, j ∈ rs → j < count) →
      ∀ j, j ∈ (SingleScalarE.loop count fuel i total_sum m rs).2.2 → j < count := by
  intro fuel
  induction fuel with
  | zero => intro i total_sum rs hrs j hj; exact hrs j hj
  | succ fuel ih =>
    intro i total_sum rs hrs j hj
    rw [SingleScalarE.loop] at hj
    by_cases h : i < count
    · rw [if_pos h] at hj
      refine ih _ _ _ ?_ j hj
      intro j2 hj2
      rcases List.mem_append.mp hj2 with h1 | h2
      · exact hrs j2 h1
      · rw [List.mem_singleton] at h2; omega
    · rw [if_neg h] at hj; exact hrs j hj

theorem Unroll2ScalarE_loop_reads_lt (m : Mem) (count : Nat) :
    ∀ fuel i total_sum rs, i ≤ count → 2 ∣ (count - i) → (∀ j, j ∈ rs → j < count) →
      ∀ j, j ∈ (Unroll2ScalarE.loop count fuel i total_sum m rs).2.2 → j < count := by
  intro fuel
  induction fuel with
  | zero => intro i total_sum rs _ _ hrs j hj; exact hrs j hj
  | succ fuel ih =>
    intro i total_sum rs hic hdvd hrs j hj
    rw [Unroll2ScalarE.loop] at hj
    by_cases h : i < count
    · rw [if_pos h] at hj
      have h2 : i + 2 ≤ count := by omega
      refine ih _ _ _ (by omega) (by omega) ?_ j hj
      intro j2 hj2
      rcases List.mem_append.mp hj2 with h1 | hmem
      · exact hrs j2 h1
      · rcases List.mem_cons.mp hmem with h3 | h4
        · omega
        · rw [List.mem_singleton] at h4; omega
    · rw [if_neg h] at hj; exact hrs j hj

theorem Unroll4ScalarE_loop_reads_lt (m : Mem) (count : Nat) :
    ∀ fuel i total_sum rs, i ≤ count → 4 ∣ (count - i) → (∀ j, j ∈ rs → j < count) →
      ∀ j, j ∈ (Unroll4ScalarE.loop count fuel i total_sum m rs).2.2 → j < count := by
  intro fuel
  induction fuel with
  | zero => intro i total_sum rs _ _ hrs j hj; exact hrs j hj
  | succ fuel ih =>
    intro i total_sum rs hic hdvd hrs j hj
    rw [Unroll4ScalarE.loop] at hj
    by_cases h : i < count
    · rw [if_pos h] at hj
      have h4 : i + 4 ≤ count := by omega
      refine ih _ _ _ (by omega) (by omega) ?_ j hj
      intro j2 hj2
      rcases List.mem_append.mp hj2 with h1 | hmem
      · exact hrs j2 h1
      · simp only [List.mem_cons, List.mem_singleton, List.not_mem_nil, or_false] at hmem
        omega
    · rw [if_neg h] at hj; exact hrs j hj

theorem Simd128E_vloop_reads_lt (m : Mem) (count : Nat) (hM : count + 4 < U32M) :
    ∀ fuel i total_sum rs, i ≤ count → (∀ j, j ∈ rs → j < count) →
      ∀ j, j ∈ (Simd128E.vloop count fuel i total_sum m rs).2.2 → j < count := by
  intro fuel
  induction fuel with
  | zero => intro i total_sum rs _ hrs j hj; exact hrs j hj
  | succ fuel ih =>
    intro i total_sum rs hic hrs j hj
    rw [Simd128E.vloop] at hj
    have hmod : (i + 4) % U32M = i + 4 := Nat.mod_eq_of_lt (by omega)
    rw [hmod] at hj
    by_cases h : i + 4 ≤ count
    · rw [if_pos h] at hj
      refine ih _ _ _ (by omega) ?_ j hj
      intro j2 hj2
      rcases List.mem_append.mp hj2 with h1 | hmem
      · exact hrs j2 h1
      · simp only [List.mem_cons, List.mem_singleton, List.not_mem_nil, or_false] at hmem
        omega
    · rw [if_neg h] at hj; exact hrs j hj

theorem Simd256E_vloop_reads_lt (m : Mem) (count : Nat) (hM : count + 8 < U32M) :
    ∀ fuel i total_sum rs, i ≤ count → (∀ j, j ∈ rs → j < count) →
      ∀ j, j ∈ (Simd256E.vloop count fuel i total_sum m rs).2.2 → j < count := by
  intro fuel
  induction fuel with
  | zero => intro i total_sum rs _ hrs j hj; exact hrs j hj
  | succ fuel ih =>
    intro i total_sum rs hic hrs j hj
    rw [Simd256E.vloop] at hj
    have hmod : (i + 8) % U32M = i + 8 := Nat.mod_eq_of_lt (by omega)
    rw [hmod] at hj
    by_cases h : i + 8 ≤ count
    · rw [if_pos h] at hj
      refine ih _ _ _ (by omega) ?_ j hj
      intro j2 hj2
      rcases List.mem_append.mp hj2 with h1 | hmem
      · exact hrs j2 h1
      · simp only [List.mem_cons, List.mem_singleton, List.not_mem_nil, or_false] at hmem
        omega
    · rw [if_neg h] at hj; exact hrs j hj

theorem Simd128E_reads_lt (count : Nat) (m : Mem) (hM : count + 4 < U32M) :
    ∀ j, j ∈ (Simd128E count m).2.2 → j < count := by
  simp only [Simd128E]
  refine SingleScalarE_loop_reads_lt _ count count _ _ _ ?_
  exact Simd128E_vloop_reads_lt m count hM count 0 mm_setzero_si128 [] (Nat.zero_le count)
    (fun j hj => absurd hj (List.not_mem_nil j))

theorem Simd256E_reads_lt (count : Nat) (m : Mem) (hM : count + 8 < U32M) :
    ∀ j, j ∈ (Simd256E count m).2.2 → j < count := by
  simp only [Simd256E]
  refine SingleScalarE_loop_reads_lt _ count count _ _ _ ?_
  exact Simd256E_vloop_reads_lt m count hM count 0 mm256_setzero_si256 [] (Nat.zero_le count)
    (fun j hj => absurd hj (List.not_mem_nil j))

theorem Unroll2ScalarE_reads_lt (count : Nat) (m : Mem) (h : 2 ∣ count) :
    ∀ j, j ∈ (Unroll2ScalarE count m).2.2 → j < count :=
  Unroll2ScalarE_loop_reads_lt m count count 0 0 [] (Nat.zero_le count) (by simpa)
    (fun j hj => absurd hj (List.not_mem_nil j))

theorem Unroll4ScalarE_reads_lt (count : Nat) (m : Mem) (h : 4 ∣ count) :
    ∀ j, j ∈ (Unroll4ScalarE count m).2.2 → j < count :=
  Unroll4ScalarE_loop_reads_lt m count count 0 0 [] (Nat.zero_le count) (by simpa)
    (fun j hj => absurd hj (List.not_mem_nil j))

/-- When `count - i` is odd, the unroll-2 loop eventually reads an index
at or past `count`: the last iteration starts at `count - 1` and touches
`count`. -/
theorem Unroll2ScalarE_loop_reads_oob (m : Mem) (count : Nat) :
    ∀ fuel i total_sum rs, count ≤ i + fuel → (count - i) % 2 = 1 →
      ∃ j, j ∈ (Unroll2ScalarE.loop count fuel i total_sum m rs).2.2 ∧ count ≤ j := by
  intro fuel
  induction fuel with
  | zero => intro i total_sum rs hle hodd; omega
  | succ fuel ih =>
    intro i total_sum rs hle hodd
    have h : i < count := by omega
    rw [Unroll2ScalarE.loop, if_pos h]
    by_cases hlast : count - i = 1
    · refine ⟨i + 1, ?_, by omega⟩
      refine Unroll2ScalarE_loop_trace_mono m count fuel (i + 2) _ _ (i + 1) ?_
      simp
    · exact ih (i + 2) _ _ (by omega) (by omega)

/-- When `count - i` is not a multiple of 4, the unroll-4 loop eventually
reads an index at or past `count`. -/
theorem Unroll4ScalarE_loop_reads_oob (m : Mem) (count : Nat) :
    ∀ fuel i total_sum rs, count ≤ i + fuel → (count - i) % 4 ≠ 0 →
      ∃ j, j ∈ (Unroll4ScalarE.loop count fuel i total_sum m rs).2.2 ∧ count ≤ j := by
  intro fuel
  induction fuel with
  | zero => intro i total_sum rs hle hrem; omega
  | succ fuel ih =>
    intro i total_sum rs hle hrem
    have h : i < count := by omega
    rw [Unroll4ScalarE.loop, if_pos h]
    by_cases hlast : count ≤ i + 3
    · refine ⟨i + 3, ?_, hlast⟩
      refine Unroll4ScalarE_loop_trace_mono m count fuel (i + 4) _ _ (i + 3) ?_
      simp
    · exact ih (i + 4) _ _ (by omega) (by omega)

theorem Unroll2ScalarE_reads_oob (count : Nat) (m : Mem) (h : ¬ 2 ∣ count) :
    ∃ j, j ∈ (Unroll2ScalarE count m).2.2 ∧ count ≤ j :=
  Unroll2ScalarE_loop_reads_oob m count count 0 0 [] (by omega) (by omega)

theorem Unroll4ScalarE_reads_oob (count : Nat) (m : Mem) (h : ¬ 4 ∣ count) :
    ∃ j, j ∈ (Unroll4ScalarE count m).2.2 ∧ count ≤ j :=
  Unroll4ScalarE_loop_reads_oob m count count 0 0 [] (by omega) (by omega)

/-! Properties of the measurement loop. -/

theorem cyclesOf_lt (s : RunSample) : cyclesOf s < U64M :=
  Nat.mod_lt _ (by decide)

theorem cyclesOf_le_max (s : RunSample) : cyclesOf s ≤ UINT64_MAX := by
  have h := cyclesOf_lt s
  unfold U64M at h
  unfold UINT64_MAX
  omega

/-- The trace of the measurement loop is one `runBlock` per remaining run,
appended to the incoming trace. -/
theorem measure_cycles_loop_trace (oracle : Nat → RunSample) :
    ∀ fuel run min_cycles clk tr,
      (measure_cycles.loop oracle fuel run min_cycles clk tr).2.2 =
        tr ++ List.flatten (List.replicate fuel runBlock) := by
  intro fuel
  induction fuel with
  | zero => intro run min_cycles clk tr; simp [measure_cycles.loop]
  | succ fuel ih =>
    intro run min_cycles clk tr
    rw [measure_cycles.loop, ih]
    rw [List.replicate_succ, List.flatten_cons, List.append_assoc]

/-- After at least one run, the loop's clock output is the estimate of the
last run processed. -/
theorem measure_cycles_loop_clk (oracle : Nat → RunSample) :
    ∀ fuel run min_cycles clk tr, 1 ≤ fuel →
      (measure_cycles.loop oracle fuel run min_cycles clk tr).2.1 =
        clockOf (oracle (run + fuel - 1)) := by
  intro fuel
  induction fuel with
  | zero => intro run min_cycles clk tr h; omega
  | succ fuel ih =>
    intro run min_cycles clk tr _
    rw [measure_cycles.loop]
    by_cases h : 1 ≤ fuel
    · rw [ih (run + 1) _ _ _ h]
      have he : run + 1 + fuel - 1 = run + (fuel + 1) - 1 := by omega
      rw [he]
    · have h0 : fuel = 0 := by omega
      subst h0
      simp [measure_cycles.loop]

/-- The loop's first output is the minimum of the incoming candidate and
the cycle counts of the runs it processes. -/
theorem measure_cycles_loop_min (oracle : Nat → RunSample) :
    ∀ fuel run min_cycles clk tr,
      ((measure_cycles.loop oracle fuel run min_cycles clk tr).1 = min_cycles ∨
        ∃ r, run ≤ r ∧ r < run + fuel ∧
          (measure_cycles.loop oracle fuel run min_cycles clk tr).1 = cyclesOf (oracle r)) ∧
      (measure_cycles.loop oracle fuel run min_cycles clk tr).1 ≤ min_cycles ∧
      (∀ r, run ≤ r → r < run + fuel →
        (measure_cycles.loop oracle fuel run min_cycles clk tr).1 ≤ cyclesOf (oracle r)) := by
  intro fuel
  induction fuel with
  | zero =>
    intro run min_cycles clk tr
    exact ⟨Or.inl rfl, Nat.le_refl _, fun r h1 h2 => by omega⟩
  | succ fuel ih =>
    intro run min_cycles clk tr
    rw [measure_cycles.loop]
    by_cases hc : cyclesOf (oracle run) < min_cycles
    · rw [if_pos hc]
      obtain ⟨hd, hle, hall⟩ := ih (run + 1) (cyclesOf (oracle run))
        (clockOf (oracle run)) (tr ++ runBlock)
      refine ⟨?_, ?_, ?_⟩
      · rcases hd with h1 | ⟨r, hr1, hr2, hr3⟩
        · exact Or.inr ⟨run, Nat.le_refl run, by omega, h1⟩
        · exact Or.inr ⟨r, by omega, by omega, hr3⟩
      · omega
      · intro r h1 h2
        by_cases hr : run + 1 ≤ r
        · exact hall r hr (by omega)
        · have hrr : r = run := by omega
          subst hrr
          exact hle
    · rw [if_neg hc]
      obtain ⟨hd, hle, hall⟩ := ih (run + 1) min_cycles (clockOf (oracle run)) (tr ++ runBlock)
      refine ⟨?_, ?_, ?_⟩
      · rcases hd with h1 | ⟨r, hr1, hr2, hr3⟩
        · exact Or.inl h1
        · exact Or.inr ⟨r, by omega, by omega, hr3⟩
      · exact hle
      · intro r h1 h2
        by_cases hr : run + 1 ≤ r
        · exact hall r hr (by omega)
        · have hrr : r = run := by omega
          subst hrr
          omega

theorem measure_cycles_trace (oracle : Nat → RunSample) (clk0 : ℚ) :
    (measure_cycles oracle clk0).2.2 = List.flatten (List.replicate NUM_RUNS runBlock) := by
  unfold measure_cycles
  rw [measure_cycles_loop_trace]
  simp

theorem measure_cycles_clk (oracle : Nat → RunSample) (clk0 : ℚ) :
    (measure_cycles oracle clk0).2.1 = clockOf (oracle (NUM_RUNS - 1)) := by
  unfold measure_cycles
  rw [measure_cycles_loop_clk oracle NUM_RUNS 0 UINT64_MAX clk0 [] (by decide)]
  simp

theorem measure_cycles_min_le (oracle : Nat → RunSample) (clk0 : ℚ) :
    ∀ r, r < NUM_RUNS → (measure_cycles oracle clk0).1 ≤ cyclesOf (oracle r) := by
  intro r h1
  exact (measure_cycles_loop_min oracle NUM_RUNS 0 UINT64_MAX clk0 []).2.2 r (Nat.zero_le r)
    (by omega)

theorem measure_cycles_min_mem (oracle : Nat → RunSample) (clk0 : ℚ) :
    ∃ r, r < NUM_RUNS ∧ (measure_cycles oracle clk0).1 = cyclesOf (oracle r) := by
  obtain ⟨hd, hle, hall⟩ := measure_cycles_loop_min oracle NUM_RUNS 0 UINT64_MAX clk0 []
  rcases hd with h1 | ⟨r, hr1, hr2, hr3⟩
  · refine ⟨0, by decide, ?_⟩
    have h2 := hall 0 (Nat.le_refl 0) (by decide)
    have h3 := cyclesOf_le_max (oracle 0)
    unfold measure_cycles
    omega
  · exact ⟨r, by simpa using hr2, hr3⟩

theorem cyclesOf_demoOracle (r : Nat) (h : r < 100) : cyclesOf (demoOracle r) = r + 1 := by
  simp only [cyclesOf, demoOracle, composeTsc, u64sub, U32M, U64M]
  omega

theorem demoOracle_min : (measure_cycles demoOracle 0).1 = cyclesOf (demoOracle 0) := by
  obtain ⟨r, hr, hmem⟩ := measure_cycles_min_mem demoOracle 0
  have hle := measure_cycles_min_le demoOracle 0 0 (by decide)
  rw [cyclesOf_demoOracle 0 (by decide)] at hle ⊢
  rw [cyclesOf_demoOracle r (by simpa [NUM_RUNS] using hr)] at hmem
  omega

/-! Control flow of the test runner and the driver. -/

theorem run_test_loop_success (alloc : Nat → Bool) (meas : Nat → Nat → RunSample)
    (func : Nat → (Nat → Nat) → Nat) (hall : ∀ u, alloc u = true) :
    ∀ sizes t, (run_test.loop alloc meas func sizes t).1.map Row.size = sizes ∧
      (run_test.loop alloc meas func sizes t).2 = none := by
  intro sizes
  induction sizes with
  | nil => intro t; exact ⟨rfl, rfl⟩
  | cons size rest ih =>
    intro t
    rw [run_test.loop]
    simp only [hall t, if_true]
    obtain ⟨ih1, ih2⟩ := ih (t + 1)
    exact ⟨by simp [ih1], by simp [ih2]⟩

theorem run_test_loop_fail (alloc : Nat → Bool) (meas : Nat → Nat → RunSample)
    (func : Nat → (Nat → Nat) → Nat) :
    ∀ sizes t i, i < sizes.length → (∀ u, u < i → alloc (t + u) = true) →
      alloc (t + i) = false →
      (run_test.loop alloc meas func sizes t).2 = sizes[i]? ∧
      (run_test.loop alloc meas func sizes t).1.length = i := by
  intro sizes
  induction sizes with
  | nil => intro t i h1; simp at h1
  | cons size rest ih =>
    intro t i h1 h2 h3
    match i with
    | 0 =>
      rw [run_test.loop]
      simp only [Nat.add_zero] at h3
      simp [h3]
    | i + 1 =>
      have h0 : alloc t = true := by
        have := h2 0 (by omega)
        simpa using this
      rw [run_test.loop]
      simp only [h0, if_true]
      have hrec := ih (t + 1) i (by simpa using h1)
        (fun u hu => by
          have := h2 (u + 1) (by omega)
          have he : t + (u + 1) = t + 1 + u := by omega
          rw [he] at this
          exact this)
        (by
          have he : t + 1 + i = t + (i + 1) := by omega
          rw [he]
          exact h3)
      exact ⟨by simp [hrec.1], by simp [hrec.2]⟩

theorem cMain_loop_success (alloc : Nat → Nat → Bool) (meas : Nat → Nat → Nat → RunSample)
    (hall : ∀ k u, alloc k u = true) :
    ∀ ks k, ((cMain.loop alloc meas ks k).1.map Prod.fst = ks.map Prod.fst) ∧
      ((cMain.loop alloc meas ks k).1.map (fun tb => tb.2.map Row.size) =
        List.replicate ks.length test_sizes) ∧
      (cMain.loop alloc meas ks k).2 = none := by
  intro ks
  induction ks with
  | nil => intro k; exact ⟨rfl, rfl, rfl⟩
  | cons p rest ih =>
    intro k
    obtain ⟨nm, func⟩ := p
    obtain ⟨h1, h2⟩ := run_test_loop_success (alloc k) (meas k) func (hall k) test_sizes 0
    obtain ⟨ih1, ih2, ih3⟩ := ih (k + 1)
    rw [cMain.loop]
    simp only [run_test, h2]
    refine ⟨?_, ?_, ?_⟩
    · simp [ih1]
    · simp [h1, ih2, List.replicate_succ]
    · simpa using ih3

theorem cMain_loop_fail (alloc : Nat → Nat → Bool) (meas : Nat → Nat → Nat → RunSample) :
    ∀ ks k k0 i0, k0 < ks.length → i0 < test_sizes.length →
      (∀ j u, j < k0 → alloc (k + j) u = true) →
      (∀ u, u < i0 → alloc (k + k0) u = true) →
      alloc (k + k0) i0 = false →
      (cMain.loop alloc meas ks k).2 = test_sizes[i0]? ∧
      (cMain.loop alloc meas ks k).1.length = k0 + 1 ∧
      (cMain.loop alloc meas ks k).1.map (fun tb => tb.2.length) =
        List.replicate k0 test_sizes.length ++ [i0] := by
  intro ks
  induction ks with
  | nil => intro k k0 i0 h1; simp at h1
  | cons p rest ih =>
    intro k k0 i0 h1 h2 h3 h4 h5
    obtain ⟨nm, func⟩ := p
    match k0 with
    | 0 =>
      obtain ⟨hf1, hf2⟩ := run_test_loop_fail (alloc k) (meas k) func test_sizes 0 i0 h2
        (fun u hu => by simpa using h4 u hu) (by simpa using h5)
      have hsome : test_sizes[i0]? = some (test_sizes[i0]) := List.getElem?_eq_getElem h2
      rw [hsome] at hf1
      rw [cMain.loop]
      simp only [run_test, hf1]
      refine ⟨by simp [hsome], by simp, ?_⟩
      simp [hf2]
    | k0 + 1 =>
      have hks : ∀ u, alloc k u = true := fun u => by simpa using h3 0 u (by omega)
      obtain ⟨hs1, hs2⟩ := run_test_loop_success (alloc k) (meas k) func hks test_sizes 0
      obtain ⟨ihf1, ihf2, ihf3⟩ := ih (k + 1) k0 i0 (by simpa using h1) h2
        (fun j u hj => by
          have := h3 (j + 1) u (by omega)
          have he : k + (j + 1) = k + 1 + j := by omega
          rw [he] at this
          exact this)
        (fun u hu => by
          have := h4 u hu
          have he : k + (k0 + 1) = k + 1 + k0 := by omega
          rw [he] at this
          exact this)
        (by
          have he : k + 1 + k0 = k + (k0 + 1) := by omega
          rw [he]
          exact h5)
      rw [cMain.loop]
      simp only [run_test, hs2]
      refine ⟨by simpa using ihf1, by simpa using ihf2, ?_⟩
      have hlen := congrArg List.length hs1
      rw [List.length_map] at hlen
      simp [hlen, ihf3, List.replicate_succ]

theorem cMain_success (alloc : Nat → Nat → Bool) (meas : Nat → Nat → Nat → RunSample)
    (hall : ∀ k u, alloc k u = true) :
    (cMain alloc meas).exitCode = 0 ∧ (cMain alloc meas).errSize = none ∧
    (cMain alloc meas).tables.map Prod.fst =
      ["SingleScalar", "Unroll2Scalar", "Unroll4Scalar", "Simd128", "Simd256"] ∧
    (cMain alloc meas).tables.map (fun tb => tb.2.map Row.size) = List.replicate 5 test_sizes := by
  obtain ⟨h1, h2, h3⟩ := cMain_loop_success alloc meas hall kernelTable 0
  unfold cMain
  refine ⟨by simp [h3], by simp [h3], ?_, ?_⟩
  · simpa [kernelTable] using h1
  · simpa [kernelTable] using h2

theorem cMain_fail (alloc : Nat → Nat → Bool) (meas : Nat → Nat → Nat → RunSample)
    (k0 i0 : Nat) (h1 : k0 < 5) (h2 : i0 < test_sizes.length)
    (h3 : ∀ j u, j < k0 → alloc j u = true) (h4 : ∀ u, u < i0 → alloc k0 u = true)
    (h5 : alloc k0 i0 = false) :
    (cMain alloc meas).exitCode = EXIT_FAILURE ∧
    (cMain alloc meas).errSize = test_sizes[i0]? ∧
    (cMain alloc meas).tables.length = k0 + 1 ∧
    (cMain alloc meas).tables.map (fun tb => tb.2.length) =
      List.replicate k0 test_sizes.length ++ [i0] := by
  obtain ⟨hf1, hf2, hf3⟩ := cMain_loop_fail alloc meas kernelTable 0 k0 i0
    (by simpa [kernelTable] using h1) h2 (by simpa using h3) (by simpa using h4)
    (by simpa using h5)
  have hsome : test_sizes[i0]? = some (test_sizes[i0]) := List.getElem?_eq_getElem h2
  unfold cMain
  refine ⟨by simp [hf1, hsome], by simp [hf1], by simp [hf2], by simp [hf3]⟩

/-! Behaviour of the Simd128 vector loop in the u32 guard-wrap region
`count ≥ 2^32 - 4`: the guard never becomes false, and the trace records
an out-of-bounds read. -/

theorem SingleScalarE_loop_trace_mono (m : Mem) (count : Nat) :
    ∀ fuel i total_sum rs j, j ∈ rs →
      j ∈ (SingleScalarE.loop count fuel i total_sum m rs).2.2 := by
  intro fuel
  induction fuel with
  | zero => intro i total_sum rs j hj; exact hj
  | succ fuel ih =>
    intro i total_sum rs j hj
    rw [SingleScalarE.loop]
    by_cases h : i < count
    · rw [if_pos h]
      exact ih _ _ _ j (List.mem_append.mpr (Or.inl hj))
    · rw [if_neg h]; exact hj

theorem Simd128E_vloop_trace_mono (m : Mem) (count : Nat) :
    ∀ fuel i total_sum rs j, j ∈ rs →
      j ∈ (Simd128E.vloop count fuel i total_sum m rs).2.2 := by
  intro fuel
  induction fuel with
  | zero => intro i total_sum rs j hj; exact hj
  | succ fuel ih =>
    intro i total_sum rs j hj
    rw [Simd128E.vloop]
    by_cases h : (i + 4) % U32M ≤ count
    · rw [if_pos h]
      exact ih _ _ _ j (List.mem_append.mpr (Or.inl hj))
    · rw [if_neg h]; exact hj

/-- For `count ≥ 2^32 - 4` the `Simd128` vector loop guard is still true at
the state where the fuel ran out — the C loop never exits.  The loop index
stays a multiple of 4 that is at most 2^32 - 4. -/
theorem Simd128_vloop_stuck (input_data : Nat → Nat) (count : Nat) (hc : U32M - 4 ≤ count) :
    ∀ fuel i total_sum, 4 ∣ i → i ≤ U32M - 4 →
      4 ∣ (Simd128.vloop input_data count fuel i total_sum).2 ∧
      (Simd128.vloop input_data count fuel i total_sum).2 ≤ U32M - 4 ∧
      ((Simd128.vloop input_data count fuel i total_sum).2 + 4) % U32M ≤ count := by
  intro fuel
  induction fuel with
  | zero =>
    intro i total_sum h4 hle
    refine ⟨h4, hle, ?_⟩
    show (i + 4) % U32M ≤ count
    simp only [U32M] at hc hle ⊢
    omega
  | succ fuel ih =>
    intro i total_sum h4 hle
    have hguard : (i + 4) % U32M ≤ count := by
      simp only [U32M] at hc hle ⊢
      omega
    rw [Simd128.vloop, if_pos hguard]
    refine ih ((i + 4) % U32M) _ ?_ ?_
    · simp only [U32M]
      omega
    · simp only [U32M] at hle ⊢
      omega

/-- For `2^32 - 4 ≤ count < 2^32` the `Simd128` vector loop performs an
out-of-bounds read: once the index reaches 2^32 - 4 the 16-byte load
touches index 2^32 - 1, which is at or past the count. -/
theorem Simd128E_vloop_oob (m : Mem) (count : Nat) (hc1 : U32M - 4 ≤ count)
    (hc2 : count < U32M) :
    ∀ fuel i total_sum rs, 4 ∣ i → i ≤ U32M - 4 → (U32M - 4 - i) / 4 < fuel →
      ∃ j, j ∈ (Simd128E.vloop count fuel i total_sum m rs).2.2 ∧ count ≤ j := by
  intro fuel
  induction fuel with
  | zero =>
    intro i total_sum rs _ _ hf
    omega
  | succ fuel ih =>
    intro i total_sum rs h4 hle hf
    have hguard : (i + 4) % U32M ≤ count := by
      simp only [U32M] at hc1 hle ⊢
      omega
    rw [Simd128E.vloop, if_pos hguard]
    by_cases hi : i = U32M - 4
    · subst hi
      refine ⟨U32M - 4 + 3, ?_, ?_⟩
      · refine Simd128E_vloop_trace_mono m count fuel _ _ _ (U32M - 4 + 3) ?_
        simp
      · simp only [U32M] at hc2 ⊢
        omega
    · have hle8 : i ≤ U32M - 8 := by
        simp only [U32M] at hle hi ⊢
        omega
      have hmod : (i + 4) % U32M = i + 4 := by
        refine Nat.mod_eq_of_lt ?_
        simp only [U32M] at hle8 ⊢
        omega
      rw [hmod]
      refine ih (i + 4) _ _ (by omega) ?_ ?_
      · simp only [U32M] at hle8 ⊢
        omega
      · simp only [U32M] at hf hle8 ⊢
        omega

/-- The out-of-bounds vector-loop read survives into the full `Simd128`
read trace. -/
theorem Simd128E_oob_at_wrap (count : Nat) (hc1 : U32M - 4 ≤ count) (hc2 : count < U32M)
    (m : Mem) :
    ∃ j, j ∈ (Simd128E count m).2.2 ∧ count ≤ j := by
  obtain ⟨j, hj, hge⟩ := Simd128E_vloop_oob m count hc1 hc2 count 0 mm_setzero_si128 []
    ⟨0, rfl⟩ (Nat.zero_le _) (by simp only [U32M] at hc1 ⊢; omega)
  refine ⟨j, ?_, hge⟩
  simp only [Simd128E]
  exact SingleScalarE_loop_trace_mono _ count count _ _ _ j hj

/-! The ten claims. -/

/-- C1 (amended): for every count n — for Unroll2Scalar and Unroll4Scalar
every n that is a multiple of the unroll factor, and for Simd128/Simd256
every n below the u32 guard-wrap threshold (n + 4 < 2^32 resp.
n + 8 < 2^32) — the kernel applied to a buffer whose elements are
0, 1, ..., n-1 returns n*(n-1)/2 reduced modulo 2^32; in particular, for
n = 5000 every kernel returns 12,497,500. -/
theorem C1_kernels_sum_gauss :
    (∀ n : Nat,
      SingleScalar n idBuf = n * (n - 1) / 2 % U32M ∧
      (n + 4 < U32M → Simd128 n idBuf = n * (n - 1) / 2 % U32M) ∧
      (n + 8 < U32M → Simd256 n idBuf = n * (n - 1) / 2 % U32M) ∧
      (2 ∣ n → Unroll2Scalar n idBuf = n * (n - 1) / 2 % U32M) ∧
      (4 ∣ n → Unroll4Scalar n idBuf = n * (n - 1) / 2 % U32M)) ∧
    SingleScalar 5000 iotaBuf = 12497500 ∧
    Unroll2Scalar 5000 iotaBuf = 12497500 ∧
    Unroll4Scalar 5000 iotaBuf = 12497500 ∧
    Simd128 5000 iotaBuf = 12497500 ∧
    Simd256 5000 iotaBuf = 12497500 := by
  have hio : sumFrom iotaBuf 0 5000 = sumFrom idBuf 0 5000 := by
    refine sumFrom_congr _ _ 5000 0 ?_
    intro j h1 h2
    simp only [iotaBuf, idBuf, U32M]
    omega
  have hval : sumFrom idBuf 0 5000 % U32M = 12497500 := by
    rw [sumFrom_idBuf]
    norm_num [U32M]
  refine ⟨?_, ?_, ?_, ?_, ?_, ?_⟩
  · intro n
    refine ⟨?_, fun hM => ?_, fun hM => ?_, fun h => ?_, fun h => ?_⟩
    · rw [SingleScalar_eq, sumFrom_idBuf]
    · rw [Simd128_eq n idBuf hM, sumFrom_idBuf]
    · rw [Simd256_eq n idBuf hM, sumFrom_idBuf]
    · rw [Unroll2Scalar_eq n idBuf h, sumFrom_idBuf]
    · rw [Unroll4Scalar_eq n idBuf h, sumFrom_idBuf]
  · rw [SingleScalar_eq, hio, hval]
  · rw [Unroll2Scalar_eq 5000 iotaBuf (by norm_num), hio, hval]
  · rw [Unroll4Scalar_eq 5000 iotaBuf (by norm_num), hio, hval]
  · rw [Simd128_eq 5000 iotaBuf (by norm_num [U32M]), hio, hval]
  · rw [Simd256_eq 5000 iotaBuf (by norm_num [U32M]), hio, hval]

theorem C1_kernels_sum_gauss_w :
    Simd128 6 idBuf = 6 * (6 - 1) / 2 % U32M ∧
    Simd256 6 idBuf = 6 * (6 - 1) / 2 % U32M ∧
    Unroll2Scalar 6 idBuf = 6 * (6 - 1) / 2 % U32M ∧
    Unroll4Scalar 8 idBuf = 8 * (8 - 1) / 2 % U32M :=
  ⟨(C1_kernels_sum_gauss.1 6).2.1 (by decide),
   (C1_kernels_sum_gauss.1 6).2.2.1 (by decide),
   (C1_kernels_sum_gauss.1 6).2.2.2.1 (by decide),
   (C1_kernels_sum_gauss.1 8).2.2.2.2 (by decide)⟩

/-- C2 (amended): for every buffer and every count divisible by 4 that is
below the u32 guard-wrap thresholds of the SIMD kernels (count + 8 < 2^32),
the five kernels SingleScalar, Unroll2Scalar, Unroll4Scalar, Simd128 and
Simd256 all return the same 32-bit sum. -/
theorem C2_kernels_agree (count : Nat) (input_data : Nat → Nat) (h : 4 ∣ count)
    (hM : count + 8 < U32M) :
    SingleScalar count input_data = Unroll2Scalar count input_data ∧
    SingleScalar count input_data = Unroll4Scalar count input_data ∧
    SingleScalar count input_data = Simd128 count input_data ∧
    SingleScalar count input_data = Simd256 count input_data := by
  have h2 : 2 ∣ count := dvd_trans (by norm_num) h
  rw [SingleScalar_eq, Unroll2Scalar_eq count input_data h2,
    Unroll4Scalar_eq count input_data h, Simd128_eq count input_data (by omega),
    Simd256_eq count input_data hM]
  exact ⟨rfl, rfl, rfl, rfl⟩

theorem C2_kernels_agree_w :
    SingleScalar 8 iotaBuf = Unroll2Scalar 8 iotaBuf ∧
    SingleScalar 8 iotaBuf = Unroll4Scalar 8 iotaBuf ∧
    SingleScalar 8 iotaBuf = Simd128 8 iotaBuf ∧
    SingleScalar 8 iotaBuf = Simd256 8 iotaBuf :=
  C2_kernels_agree 8 iotaBuf (by decide) (by decide)

/-- C3 (amended): for every count n below the u32 guard-wrap threshold of
the respective SIMD kernel (n + 4 < 2^32 for Simd128, n + 8 < 2^32 for
Simd256), including every such n not divisible by the lane count, Simd128
and Simd256 read only in-bounds indices and return the same sum as
SingleScalar (the scalar tail loop handles the remainder). -/
theorem C3_simd_tail_safe (count : Nat) (input_data : Nat → Nat) (m : Mem) :
    (count + 4 < U32M → Simd128 count input_data = SingleScalar count input_data) ∧
    (count + 8 < U32M → Simd256 count input_data = SingleScalar count input_data) ∧
    (count + 4 < U32M → (Simd128E count m).2.2.all (fun j => decide (j < count)) = true) ∧
    (count + 8 < U32M → (Simd256E count m).2.2.all (fun j => decide (j < count)) = true) := by
  refine ⟨fun hM => by rw [Simd128_eq count input_data hM, SingleScalar_eq],
    fun hM => by rw [Simd256_eq count input_data hM, SingleScalar_eq], fun hM => ?_,
    fun hM => ?_⟩
  · rw [List.all_eq_true]
    intro j hj
    simpa using Simd128E_reads_lt count m hM j hj
  · rw [List.all_eq_true]
    intro j hj
    simpa using Simd256E_reads_lt count m hM j hj

theorem C3_simd_tail_safe_w :
    Simd128 5 iotaBuf = SingleScalar 5 iotaBuf ∧
    Simd256 5 iotaBuf = SingleScalar 5 iotaBuf ∧
    (Simd128E 5 iotaBuf).2.2.all (fun j => decide (j < 5)) = true ∧
    (Simd256E 5 iotaBuf).2.2.all (fun j => decide (j < 5)) = true :=
  ⟨(C3_simd_tail_safe 5 iotaBuf iotaBuf).1 (by decide),
   (C3_simd_tail_safe 5 iotaBuf iotaBuf).2.1 (by decide),
   (C3_simd_tail_safe 5 iotaBuf iotaBuf).2.2.1 (by decide),
   (C3_simd_tail_safe 5 iotaBuf iotaBuf).2.2.2 (by decide)⟩

/-- C4: measure_cycles performs exactly NUM_RUNS = 100 runs, each one a
clock read, a tsc read, the kernel call, a tsc read and a clock read in
that order, and returns the minimum cycle count over those runs. -/
theorem C4_measure_min_of_100 (oracle : Nat → RunSample) (clk0 : ℚ) :
    (measure_cycles oracle clk0).2.2 = List.flatten (List.replicate NUM_RUNS runBlock) ∧
    NUM_RUNS = 100 ∧
    (∀ r, r < NUM_RUNS → (measure_cycles oracle clk0).1 ≤ cyclesOf (oracle r)) ∧
    (∃ r, r < NUM_RUNS ∧ (measure_cycles oracle clk0).1 = cyclesOf (oracle r)) :=
  ⟨measure_cycles_trace oracle clk0, rfl, measure_cycles_min_le oracle clk0,
    measure_cycles_min_mem oracle clk0⟩

theorem C4_measure_min_of_100_w :
    (measure_cycles demoOracle 0).2.2 = List.flatten (List.replicate NUM_RUNS runBlock) ∧
    (measure_cycles demoOracle 0).1 ≤ cyclesOf (demoOracle 7) :=
  ⟨(C4_measure_min_of_100 demoOracle 0).1,
   (C4_measure_min_of_100 demoOracle 0).2.2.1 7 (by decide)⟩

/-- C5: under the precondition that count is a multiple of the unroll
factor, every index the unroll kernels read is below count; when the
precondition is violated, some read index is at or past count. -/
theorem C5_unroll_bounds (count : Nat) (m : Mem) :
    (2 ∣ count → (Unroll2ScalarE count m).2.2.all (fun j => decide (j < count)) = true) ∧
    (¬ 2 ∣ count → (Unroll2ScalarE count m).2.2.any (fun j => decide (count ≤ j)) = true) ∧
    (4 ∣ count → (Unroll4ScalarE count m).2.2.all (fun j => decide (j < count)) = true) ∧
    (¬ 4 ∣ count → (Unroll4ScalarE count m).2.2.any (fun j => decide (count ≤ j)) = true) := by
  refine ⟨fun h => ?_, fun h => ?_, fun h => ?_, fun h => ?_⟩
  · rw [List.all_eq_true]
    intro j hj
    simpa using Unroll2ScalarE_reads_lt count m h j hj
  · rw [List.any_eq_true]
    obtain ⟨j, hj, hge⟩ := Unroll2ScalarE_reads_oob count m h
    exact ⟨j, hj, by simpa using hge⟩
  · rw [List.all_eq_true]
    intro j hj
    simpa using Unroll4ScalarE_reads_lt count m h j hj
  · rw [List.any_eq_true]
    obtain ⟨j, hj, hge⟩ := Unroll4ScalarE_reads_oob count m h
    exact ⟨j, hj, by simpa using hge⟩

theorem C5_unroll_bounds_w :
    (Unroll2ScalarE 4 iotaBuf).2.2.all (fun j => decide (j < 4)) = true ∧
    (Unroll2ScalarE 3 iotaBuf).2.2.any (fun j => decide (3 ≤ j)) = true ∧
    (Unroll4ScalarE 8 iotaBuf).2.2.all (fun j => decide (j < 8)) = true ∧
    (Unroll4ScalarE 6 iotaBuf).2.2.any (fun j => decide (6 ≤ j)) = true :=
  ⟨(C5_unroll_bounds 4 iotaBuf).1 (by decide),
   (C5_unroll_bounds 3 iotaBuf).2.1 (by decide),
   (C5_unroll_bounds 8 iotaBuf).2.2.1 (by decide),
   (C5_unroll_bounds 6 iotaBuf).2.2.2 (by decide)⟩

/-- C6: the clock side output of measure_cycles is the cycles-per-second
estimate of the last (100th) run, regardless of which run attained the
returned minimum; with the demonstration oracle the minimum comes from run
0 while the reported clock is run 99's, which differs from run 0's. -/
theorem C6_clock_from_last_run :
    (∀ (oracle : Nat → RunSample) (clk0 : ℚ),
      (measure_cycles oracle clk0).2.1 = clockOf (oracle (NUM_RUNS - 1))) ∧
    NUM_RUNS - 1 = 99 ∧
    (measure_cycles demoOracle 0).1 = cyclesOf (demoOracle 0) ∧
    (measure_cycles demoOracle 0).2.1 = clockOf (demoOracle 99) ∧
    clockOf (demoOracle 99) ≠ clockOf (demoOracle 0) := by
  have h99 : clockOf (demoOracle 99) = 100000000000 := by
    norm_num [clockOf, cyclesOf, elapsedNs, demoOracle, composeTsc, u64sub, U32M, U64M]
  have h0 : clockOf (demoOracle 0) = 1000000000 := by
    norm_num [clockOf, cyclesOf, elapsedNs, demoOracle, composeTsc, u64sub, U32M, U64M]
  refine ⟨measure_cycles_clk, rfl, demoOracle_min, ?_, ?_⟩
  · rw [measure_cycles_clk]
    rfl
  · rw [h99, h0]
    norm_num

/-- C7: a failed buffer allocation terminates the process at once with a
non-zero exit status and a diagnostic naming the failed size, emitting no
further rows; on normal completion the exit status is 0. -/
theorem C7_alloc_failure_fatal (alloc : Nat → Nat → Bool) (meas : Nat → Nat → Nat → RunSample) :
    ((∀ k u, alloc k u = true) →
      (cMain alloc meas).exitCode = 0 ∧ (cMain alloc meas).errSize = none) ∧
    (∀ k0 i0, k0 < 5 → i0 < test_sizes.length →
      (∀ j u, j < k0 → alloc j u = true) →
      (∀ u, u < i0 → alloc k0 u = true) →
      alloc k0 i0 = false →
      (cMain alloc meas).exitCode = EXIT_FAILURE ∧ EXIT_FAILURE ≠ 0 ∧
      (cMain alloc meas).errSize = test_sizes[i0]? ∧
      (cMain alloc meas).tables.length = k0 + 1 ∧
      (cMain alloc meas).tables.map (fun tb => tb.2.length) =
        List.replicate k0 test_sizes.length ++ [i0]) := by
  constructor
  · intro hall
    obtain ⟨e1, e2, _, _⟩ := cMain_success alloc meas hall
    exact ⟨e1, e2⟩
  · intro k0 i0 h1 h2 h3 h4 h5
    obtain ⟨f1, f2, f3, f4⟩ := cMain_fail alloc meas k0 i0 h1 h2 h3 h4 h5
    exact ⟨f1, by decide, f2, f3, f4⟩

theorem C7_alloc_failure_fatal_w :
    ((cMain (fun _ _ => true) (fun _ _ _ => demoOracle 0)).exitCode = 0 ∧
      (cMain (fun _ _ => true) (fun _ _ _ => demoOracle 0)).errSize = none) ∧
    ((cMain (fun k _ => decide (k < 2)) (fun _ _ _ => demoOracle 0)).exitCode = EXIT_FAILURE ∧
      (cMain (fun k _ => decide (k < 2)) (fun _ _ _ => demoOracle 0)).errSize = test_sizes[0]?) := by
  constructor
  · exact (C7_alloc_failure_fatal (fun _ _ => true) (fun _ _ _ => demoOracle 0)).1
      (fun k u => rfl)
  · have h := (C7_alloc_failure_fatal (fun k _ => decide (k < 2)) (fun _ _ _ => demoOracle 0)).2
      2 0 (by decide) (by decide) (fun j u hj => decide_eq_true hj)
      (fun u hu => absurd hu (Nat.not_lt_zero u)) (by decide)
    exact ⟨h.1, h.2.2.1⟩

/-- C8: the driver runs the Test Runner once per kernel in the fixed order
SingleScalar, Unroll2Scalar, Unroll4Scalar, Simd128, Simd256, over the
compiled-in size list [5000]. -/
theorem C8_driver_fixed_order (alloc : Nat → Nat → Bool) (meas : Nat → Nat → Nat → RunSample)
    (hall : ∀ k u, alloc k u = true) :
    (cMain alloc meas).tables.map Prod.fst =
      ["SingleScalar", "Unroll2Scalar", "Unroll4Scalar", "Simd128", "Simd256"] ∧
    (cMain alloc meas).tables.map (fun tb => tb.2.map Row.size) = List.replicate 5 test_sizes ∧
    test_sizes = [5000] := by
  obtain ⟨_, _, h3, h4⟩ := cMain_success alloc meas hall
  exact ⟨h3, h4, rfl⟩

theorem C8_driver_fixed_order_w :
    (cMain (fun _ _ => true) (fun _ _ _ => demoOracle 0)).tables.map Prod.fst =
      ["SingleScalar", "Unroll2Scalar", "Unroll4Scalar", "Simd128", "Simd256"] ∧
    test_sizes = [5000] := by
  have h := C8_driver_fixed_order (fun _ _ => true) (fun _ _ _ => demoOracle 0) (fun k u => rfl)
  exact ⟨h.1, h.2.2⟩

/-- C9: all five kernels are read-only on the buffer: the threaded memory
state is returned unchanged, and the instrumented result equals the plain
kernel result. -/
theorem C9_kernels_readonly (count : Nat) (m : Mem) :
    (SingleScalarE count m).2.1 = m ∧ (Unroll2ScalarE count m).2.1 = m ∧
    (Unroll4ScalarE count m).2.1 = m ∧ (Simd128E count m).2.1 = m ∧
    (Simd256E count m).2.1 = m ∧
    (SingleScalarE count m).1 = SingleScalar count m ∧
    (Unroll2ScalarE count m).1 = Unroll2Scalar count m ∧
    (Unroll4ScalarE count m).1 = Unroll4Scalar count m ∧
    (Simd128E count m).1 = Simd128 count m ∧
    (Simd256E count m).1 = Simd256 count m :=
  ⟨SingleScalarE_mem count m, Unroll2ScalarE_mem count m, Unroll4ScalarE_mem count m,
   Simd128E_mem count m, Simd256E_mem count m, SingleScalarE_fst count m,
   Unroll2ScalarE_fst count m, Unroll4ScalarE_fst count m, Simd128E_fst count m,
   Simd256E_fst count m⟩

/-- C10: for count = 0 every kernel returns 0 and reads no element, and 0
satisfies both unroll preconditions. -/
theorem C10_count_zero (m : Mem) :
    SingleScalar 0 m = 0 ∧ Unroll2Scalar 0 m = 0 ∧ Unroll4Scalar 0 m = 0 ∧
    Simd128 0 m = 0 ∧ Simd256 0 m = 0 ∧
    (SingleScalarE 0 m).2.2 = [] ∧ (Unroll2ScalarE 0 m).2.2 = [] ∧
    (Unroll4ScalarE 0 m).2.2 = [] ∧ (Simd128E 0 m).2.2 = [] ∧ (Simd256E 0 m).2.2 = [] ∧
    2 ∣ (0 : Nat) ∧ 4 ∣ (0 : Nat) :=
  ⟨rfl, rfl, rfl, rfl, rfl, rfl, rfl, rfl, rfl, rfl, ⟨0, rfl⟩, ⟨0, rfl⟩⟩


/-- C1 counterexample: at count 2^32 - 4 the `Simd128` u32 loop guard has
wrapped: after the loop's full fuel the guard is still true (the C loop
never exits), and the read trace contains an index at or past the count,
so the kernel does not return the Gauss sum of the buffer 0..n-1 there. -/
theorem C1_simd_wrap_cx :
    ((Simd128.vloop idBuf 4294967292 4294967292 0 mm_setzero_si128).2 + 4) % U32M ≤
      4294967292 ∧
    (Simd128E 4294967292 idBuf).2.2.any (fun j => decide (4294967292 ≤ j)) = true := by
  constructor
  · exact (Simd128_vloop_stuck idBuf 4294967292 (by decide) 4294967292 0 mm_setzero_si128
      ⟨0, rfl⟩ (by decide)).2.2
  · rw [List.any_eq_true]
    obtain ⟨j, hj, hge⟩ := Simd128E_oob_at_wrap 4294967292 (by decide) (by decide) idBuf
    exact ⟨j, hj, decide_eq_true hge⟩

/-- C2 counterexample: count 2^32 - 4 is divisible by 4, yet the `Simd128`
u32 loop guard has wrapped there: the loop never exits and reads out of
bounds, so the five kernels do not all return the same sum at that count. -/
theorem C2_simd_wrap_cx :
    4 ∣ (4294967292 : Nat) ∧
    ((Simd128.vloop iotaBuf 4294967292 4294967292 0 mm_setzero_si128).2 + 4) % U32M ≤
      4294967292 ∧
    (Simd128E 4294967292 iotaBuf).2.2.any (fun j => decide (4294967292 ≤ j)) = true := by
  refine ⟨by decide, ?_, ?_⟩
  · exact (Simd128_vloop_stuck iotaBuf 4294967292 (by decide) 4294967292 0 mm_setzero_si128
      ⟨0, rfl⟩ (by decide)).2.2
  · rw [List.any_eq_true]
    obtain ⟨j, hj, hge⟩ := Simd128E_oob_at_wrap 4294967292 (by decide) (by decide) iotaBuf
    exact ⟨j, hj, decide_eq_true hge⟩

/-- C3 counterexample: at count 2^32 - 3 (not a lane multiple) the
`Simd128` read trace contains an out-of-bounds index, refuting the
in-bounds property as originally stated for every count, and the wrapped
guard is still true after the loop's full fuel (the C loop never exits). -/
theorem C3_simd_wrap_cx :
    (Simd128E 4294967293 iotaBuf).2.2.all (fun j => decide (j < 4294967293)) = false ∧
    ((Simd128.vloop iotaBuf 4294967293 4294967293 0 mm_setzero_si128).2 + 4) % U32M ≤
      4294967293 := by
  constructor
  · obtain ⟨j, hj, hge⟩ := Simd128E_oob_at_wrap 4294967293 (by decide) (by decide) iotaBuf
    rw [Bool.eq_false_iff]
    intro hall
    rw [List.all_eq_true] at hall
    have hlt := hall j hj
    simp at hlt
    omega
  · exact (Simd128_vloop_stuck iotaBuf 4294967293 (by decide) 4294967293 0 mm_setzero_si128
      ⟨0, rfl⟩ (by decide)).2.2
